import Mathlib

/-!
Verification of the completion engine of the `completers` repository.

The development shallowly embeds the Rust sources:
  * `src/scoring.rs`   — the fuzzy subsequence matcher and the DP scorer;
  * `src/ui/model.rs`  — `CompleterView`, `CompleterStack` and `Model`.

Strings are embedded as `List Char` (one element per Rust `char`).
Rust `usize` values are embedded as `Nat`; the two spots where the source
performs a plain (non-saturating) subtraction that can underflow are
modelled with explicit wrapping modulo `2 ^ 64` (the release-build
behaviour; debug builds panic there).  Fallible operations (Rust panics:
out-of-bounds indexing, `%` by zero) are embedded with `Option`, `none`
standing for the panic.
-/

/-! ## Character classes (scoring.rs helpers)

`char::is_whitespace` is the Unicode `White_Space` property, a fixed
25-codepoint set, embedded exactly.  `char::is_alphanumeric` is embedded on
the ASCII range; the full Unicode table is environment data of the Rust
standard library, every concrete input in this development is ASCII, and no
theorem below depends on how non-ASCII characters are classified. -/

/-- Rust `char::is_whitespace` (the Unicode `White_Space` set). -/
def rust_is_whitespace (c : Char) : Bool :=
  let n := c.toNat
  (n == 0x09) || (n == 0x0A) || (n == 0x0B) || (n == 0x0C) || (n == 0x0D) ||
  (n == 0x20) || (n == 0x85) || (n == 0xA0) || (n == 0x1680) ||
  (0x2000 ≤ n && n ≤ 0x200A) ||
  (n == 0x2028) || (n == 0x2029) || (n == 0x202F) || (n == 0x205F) || (n == 0x3000)

/-- Rust `char::is_alphanumeric`, restricted to the ASCII range
(digits and latin letters). -/
def rust_is_alphanumeric (c : Char) : Bool :=
  let n := c.toNat
  (0x30 ≤ n && n ≤ 0x39) || (0x41 ≤ n && n ≤ 0x5A) || (0x61 ≤ n && n ≤ 0x7A)

/-- Rust `char::to_ascii_lowercase` (also the per-character effect of
`str::to_ascii_lowercase` used in `subsequence_match`). -/
def toAsciiLower (c : Char) : Char :=
  if 0x41 ≤ c.toNat ∧ c.toNat ≤ 0x5A then Char.ofNat (c.toNat + 32) else c

/-- Number of UTF-8 bytes of one character; `str::len` counts bytes. -/
def utf8CharLen (c : Char) : Nat :=
  if c.toNat < 0x80 then 1
  else if c.toNat < 0x800 then 2
  else if c.toNat < 0x10000 then 3
  else 4

/-- Rust `str::len` (UTF-8 byte length) of an embedded string. -/
def utf8Len (s : List Char) : Nat :=
  (s.map utf8CharLen).sum

/-! ## `scoring.rs`: `subsequence_match` -/

/-- One step of the loop body of `subsequence_match`: `s.find(c)` followed by
`s = &s[(p + 1)..]`, i.e. the suffix of `s` after the first occurrence of `c`,
or `none` when `c` does not occur.  The byte-level slice is modelled at
character level; this is exact for ASCII text (on a multibyte match the Rust
code would slice mid-character and panic, which no claim exercises). -/
def findSuffixAfter (c : Char) : List Char → Option (List Char)
  | [] => none
  | x :: xs => if x = c then some xs else findSuffixAfter c xs

/-- The `for c in chars` loop of `subsequence_match`. -/
def subseqLoop : List Char → List Char → Bool
  | [], _ => true
  | c :: cs, s =>
    match findSuffixAfter c s with
    | none => false
    | some rest => subseqLoop cs rest

/-- `scoring::subsequence_match(query, string)`: the candidate `string` is
ASCII-lowercased, the query's whitespace characters are dropped (the query is
*not* lowercased by the source), and each remaining query character is looked
up left to right. -/
def subsequence_match (query string : List Char) : Bool :=
  subseqLoop (query.filter (fun c => !rust_is_whitespace c)) (string.map toAsciiLower)

/-! ## `scoring.rs`: the DP scorer -/

/-- `scoring::Score` (`u64` in the source; scores stay far below `2 ^ 64`
for any realistic input, and no claim exercises `u64` overflow). -/
abbrev Score := Nat

/-- `scoring::ScoringSettings`. -/
structure ScoringSettings where
  letter_match : Score
  subsequent_bonus : Score
  word_start_bonus : Score

/-- `scoring::ScoringEntry`. -/
structure ScoringEntry where
  take : Score
  leave : Score
deriving DecidableEq

/-- The loop body of `scoring::word_start_indices`, carrying the
`previous_char_is_letter` flag and the enumeration counter. -/
def word_start_go (prev : Bool) (i : Nat) : List Char → List Nat
  | [] => []
  | c :: cs =>
    if !prev && rust_is_alphanumeric c then i :: word_start_go true (i + 1) cs
    else if !rust_is_alphanumeric c then word_start_go false (i + 1) cs
    else word_start_go prev (i + 1) cs

/-- `scoring::word_start_indices`. -/
def word_start_indices (cs : List Char) : List Nat :=
  word_start_go false 0 cs

/-- `ScoringArray::word_start_bonus`. -/
def word_start_bonus (ws : List Nat) (s : ScoringSettings) (candidate_index : Nat) : Score :=
  if ws.contains candidate_index then s.word_start_bonus else 0

/-- The scoring table of `ScoringArray::compute`, as a recursive function of
the cell coordinates: `entryAt qs cs ws s i j` is the entry the source stores
at row `i` (query index) and column `j` (candidate index).  The `take`
component embeds `ScoringArray::take_score`, the `leave` component
`ScoringArray::leave_score`; `compute` fills the table in an order that makes
each cell depend only on the cells `(i-1, j-1)` and `(i, j-1)`, which is the
recursion below. -/
def entryAt (qs cs : List Char) (ws : List Nat) (s : ScoringSettings) : Nat → Nat → ScoringEntry
  | i, 0 =>
    -- take_score: at candidate index 0 the `query_index > 0 && candidate_index > 0`
    -- guard fails, so score_from_prev = 0; leave_score returns 0 at index 0.
    ⟨if qs.getD i default = cs.getD 0 default
       then s.letter_match + word_start_bonus ws s 0
       else 0,
     0⟩
  | i, j + 1 =>
    let take :=
      if qs.getD i default = cs.getD (j + 1) default then
        (match i with
         | 0 => 0
         | i' + 1 =>
           let prev := entryAt qs cs ws s i' j
           let take_prev_score := if 0 < prev.take then prev.take + s.subsequent_bonus else 0
           max take_prev_score prev.leave) +
        s.letter_match + word_start_bonus ws s (j + 1)
      else 0
    let prev_row := entryAt qs cs ws s i j
    ⟨take, max prev_row.take prev_row.leave⟩

/-- `ScoringArray::score`: the `max` of the last cell, or 0 when either the
query or the candidate is empty. -/
def arrayScore (qs cs : List Char) (ws : List Nat) (s : ScoringSettings) : Score :=
  if 0 < qs.length ∧ 0 < cs.length then
    let e := entryAt qs cs ws s (qs.length - 1) (cs.length - 1)
    max e.take e.leave
  else 0

/-- `scoring::score(candidate, query, settings)`: 0 when the query's byte
length exceeds the candidate's; otherwise the DP score over the lowercased
candidate and the whitespace-stripped, lowercased query. -/
def score (candidate query : List Char) (settings : ScoringSettings) : Score :=
  if utf8Len candidate < utf8Len query then 0
  else
    let candidate_chars := candidate.map toAsciiLower
    let query_chars := (query.filter (fun c => !rust_is_whitespace c)).map toAsciiLower
    let word_starts := word_start_indices candidate_chars
    arrayScore query_chars candidate_chars word_starts settings

/-! ## `core.rs`: completions and completers

`model.rs` treats the completer as an abstract capability (`core.rs`'s trait
is stale relative to `model.rs`: its `fetch_completions` returns `()` while
`model.rs` consumes a returned batch).  Modelled from the spec: a Completer
(§4.4) has a name, yields successive batches of fresh candidates from
`fetch_completions` (an exhausted completer returns an empty batch), and has
`descend`/`ascend` operations returning an optional new completer.  The
batches are embedded as a list of pending batches, `descend` as a function of
the selected completion, `ascend` as an optional replacement. -/

/-- A completion (`core::Completion`): a result string and the search string
the scorer runs on (`search_string` defaults to `result_string` in the
source but may be overridden, so it is an independent field). -/
structure Completion where
  result_string : List Char
  search_string : List Char
deriving DecidableEq

/-- Modelled from the spec: the `core::Completer` capability (§4.4);
see the section comment above. -/
inductive Completer where
  | mk (name : List Char) (batches : List (List Completion))
       (descend_map : Completion → Option Completer)
       (ascend_result : Option Completer)

/-- `Completer::fetch_completions`: the next pending batch (empty once
exhausted) together with the advanced completer state. -/
def Completer.fetch : Completer → List Completion × Completer
  | .mk n [] d a => ([], .mk n [] d a)
  | .mk n (b :: bs) d a => (b, .mk n bs d a)

/-- `Completer::descend(selected_completion)`. -/
def Completer.descend : Completer → Completion → Option Completer
  | .mk _ _ d _, c => d c

/-- `Completer::ascend()`. -/
def Completer.ascend : Completer → Option Completer
  | .mk _ _ _ a => a

/-! ## `ui/model.rs`: `CompleterView` -/

/-- `usize` arithmetic: the modulus `2 ^ 64`. -/
def USIZE_MOD : Nat := 2 ^ 64

/-- Rust's plain `usize` subtraction `a - b` (for `a, b < 2 ^ 64`): wraps
modulo `2 ^ 64` in release builds; debug builds panic on underflow.  The
source uses it in `next_page` and `select_last` where it can underflow.
(`saturating_sub` is embedded as truncated `Nat` subtraction instead.)
The modulus is added on the left, which changes nothing for `b ≤ 2 ^ 64`. -/
def usize_sub (a b : Nat) : Nat :=
  (USIZE_MOD + a - b) % USIZE_MOD

/-- Rust's plain `usize` addition, wrapping modulo `2 ^ 64`. -/
def usize_add (a b : Nat) : Nat :=
  (a + b) % USIZE_MOD

/-- `model::CompletionScore`: index into `all_completions` plus score. -/
structure CompletionScore where
  index : Nat
  score : Score
deriving DecidableEq

/-- `model::CompleterView`. -/
structure CompleterView where
  completer : Completer
  view_offset : Nat
  selection : Nat
  query : List Char
  all_completions : List Completion
  scored_completions : List CompletionScore

/-- `CompleterView::new`. -/
def CompleterView.new (completer : Completer) : CompleterView :=
  ⟨completer, 0, 0, [], [], []⟩

/-- `CompleterView::selected_completion`: `scored_completions.get(selection)`
then indexing `all_completions[sc.index]`; the inner indexing panics when the
stored index is out of bounds, embedded as `none` via `get?`. -/
def CompleterView.selected_completion (v : CompleterView) : Option Completion :=
  (v.scored_completions.get? v.selection).bind
    (fun sc => v.all_completions.get? sc.index)

/-- `CompleterView::select_previous`.  The guarded `view_offset - 1` cannot
underflow (`selection < view_offset` forces `view_offset ≥ 1`), but it is
embedded with the same wrapping `usize` subtraction the source's `-` has. -/
def CompleterView.select_previous (v : CompleterView) : CompleterView :=
  let selection := v.selection - 1
  let view_offset := if selection < v.view_offset then usize_sub v.view_offset 1 else v.view_offset
  { v with selection := selection, view_offset := view_offset }

/-- `CompleterView::select_next` (`H` is the `CHOOSER_HEIGHT` constant from
the `config` module, which is absent from `src/`; modelled from the spec as
an explicit positive page-size parameter). -/
def CompleterView.select_next (H : Nat) (v : CompleterView) : CompleterView :=
  let completions_count := v.scored_completions.length
  let selection := min (usize_add v.selection 1) (completions_count - 1)
  let view_offset :=
    if usize_add v.view_offset H ≤ selection then usize_add v.view_offset 1 else v.view_offset
  { v with selection := selection, view_offset := view_offset }

/-- `CompleterView::previous_page`. -/
def CompleterView.previous_page (H : Nat) (v : CompleterView) : CompleterView :=
  let selection := v.selection - H
  let view_offset := if selection < v.view_offset then selection else v.view_offset
  { v with selection := selection, view_offset := view_offset }

/-- `CompleterView::next_page`: note the *plain* `completions_count - 1`
(wrapping; a debug build panics here when the ranked list is empty), in
contrast to `select_next`'s `saturating_sub`. -/
def CompleterView.next_page (H : Nat) (v : CompleterView) : CompleterView :=
  let completions_count := v.scored_completions.length
  let selection := min (usize_add v.selection H) (usize_sub completions_count 1)
  let view_offset :=
    if usize_add v.view_offset H ≤ selection then selection - (usize_sub H 1) else v.view_offset
  { v with selection := selection, view_offset := view_offset }

/-- `CompleterView::select_first`. -/
def CompleterView.select_first (v : CompleterView) : CompleterView :=
  { v with selection := 0, view_offset := 0 }

/-- `CompleterView::select_last`: the same *plain* `completions_count - 1`
as `next_page` (wrapping; panics in a debug build on an empty ranked list). -/
def CompleterView.select_last (H : Nat) (v : CompleterView) : CompleterView :=
  let completions_count := v.scored_completions.length
  let selection := usize_sub completions_count 1
  let view_offset := selection - (usize_sub H 1)
  { v with selection := selection, view_offset := view_offset }

/-- The `ScoringSettings` literal in `CompleterView::scores`
(`letter_match: 1, word_start_bonus: 2, subsequent_bonus: 3`). -/
def view_scoring_settings : ScoringSettings :=
  { letter_match := 1, subsequent_bonus := 3, word_start_bonus := 2 }

/-- The iterator chain in `CompleterView::scores`:
`all_completions[start..].iter().enumerate().filter(subsequence_match).map(...)`
with `index = score_start_index + position-in-slice`; `i` carries
`score_start_index + position` directly. -/
def scoresFrom (query : List Char) (i : Nat) : List Completion → List CompletionScore
  | [] => []
  | c :: cs =>
    if subsequence_match query c.search_string then
      ⟨i, score c.search_string query view_scoring_settings⟩ :: scoresFrom query (i + 1) cs
    else
      scoresFrom query (i + 1) cs

/-- One insertion step of a stable descending sort by score: `x` is placed
before the first element whose score does not exceed it. -/
def insertDesc (x : CompletionScore) : List CompletionScore → List CompletionScore
  | [] => [x]
  | y :: ys => if x.score < y.score then y :: insertDesc x ys else x :: y :: ys

/-- The `sort_by(|a, b| a.score.cmp(&b.score).reverse())` call in
`CompleterView::scores`.  Rust's `sort_by` is a *stable* sort, and the output
of a stable sort is uniquely determined by the comparator and the input
order, so it is embedded as a stable insertion sort by descending score. -/
def sortScores (l : List CompletionScore) : List CompletionScore :=
  l.foldr insertDesc []

/-- `CompleterView::scores(score_start_index)`. -/
def CompleterView.scores (v : CompleterView) (score_start_index : Nat) : List CompletionScore :=
  sortScores (scoresFrom v.query score_start_index (v.all_completions.drop score_start_index))

/-- The `|a, b| a.score >= b.score` comparator closure that
`CompleterView::fetch_completions` passes to `merge_by`. -/
def score_ge (a b : CompletionScore) : Bool := decide (b.score ≤ a.score)

/-- `CompleterView::update_query`. -/
def CompleterView.update_query (v : CompleterView) (new_query : List Char) : CompleterView :=
  let v' := { v with selection := 0, view_offset := 0, query := new_query }
  { v' with scored_completions := v'.scores 0 }

/-- `itertools`' `merge_by(other, f)`: merge two runs, taking from the first
iterator while `f` holds (so on ties, `f a b = a.score >= b.score` keeps the
element of the existing ranked list first).  The recursion is phrased
structurally on the first run (each of its elements `x` is emitted after the
longest prefix of the second run on which `f x ·` fails); the theorem
`merge_by_cons_cons` below recovers `merge_by`'s element-at-a-time equation,
which is literally the behaviour of the itertools adaptor. -/
def merge_by (f : CompletionScore → CompletionScore → Bool) :
    List CompletionScore → List CompletionScore → List CompletionScore
  | [], ys => ys
  | x :: xs, ys =>
    ys.takeWhile (fun y => !f x y) ++
      x :: merge_by f xs (ys.dropWhile (fun y => !f x y))

/-- `CompleterView::fetch_completions`: pull one batch from the completer,
append it to `all_completions`, score only the new tail, and merge the new
run into the existing ranked list with `merge_by(|a, b| a.score >= b.score)`. -/
def CompleterView.fetch_completions (v : CompleterView) : CompleterView :=
  let fetched := v.completer.fetch
  let score_start_index := v.all_completions.length
  let v' := { v with completer := fetched.2,
                     all_completions := v.all_completions ++ fetched.1 }
  let new_completion_scores := v'.scores score_start_index
  let merged := merge_by score_ge v.scored_completions new_completion_scores
  { v' with scored_completions := merged }

/-- `CompleterView::completion_at`: both indexings (`scored_completions[index]`
and `all_completions[sc.index]`) panic when out of bounds, embedded via
`get?`. -/
def CompleterView.completion_at (v : CompleterView) (index : Nat) :
    Option (Completion × Score) :=
  (v.scored_completions.get? index).bind
    (fun sc => (v.all_completions.get? sc.index).map (fun c => (c, sc.score)))

/-- The operations a `CompleterView` undergoes over its lifetime (the
selection/paging operations plus query updates and fetch ticks). -/
inductive ViewOp where
  | update_query (q : List Char)
  | fetch_completions
  | select_previous
  | select_next
  | previous_page
  | next_page
  | select_first
  | select_last

/-- Dispatch one `ViewOp` on a view (`H` = `CHOOSER_HEIGHT`). -/
def CompleterView.applyOp (H : Nat) (v : CompleterView) : ViewOp → CompleterView
  | .update_query q => v.update_query q
  | .fetch_completions => v.fetch_completions
  | .select_previous => v.select_previous
  | .select_next => v.select_next H
  | .previous_page => v.previous_page H
  | .next_page => v.next_page H
  | .select_first => v.select_first
  | .select_last => v.select_last H

/-- A fresh view after an arbitrary sequence of operations. -/
def CompleterView.run (H : Nat) (c : Completer) (ops : List ViewOp) : CompleterView :=
  ops.foldl (CompleterView.applyOp H) (CompleterView.new c)

/-! ## `ui/model.rs`: `CompleterStack`

The `Vec<CompleterView>` is embedded as a `List` whose *head* is the Rust
vector's *last* element (the active level): `last()/last_mut()` is the list
head, `push` conses, `pop` drops the head. -/

/-- `model::CompleterStack`. -/
structure CompleterStack where
  stack : List CompleterView

/-- `CompleterStack::new`. -/
def CompleterStack.new (completer : Completer) : CompleterStack :=
  ⟨[CompleterView.new completer]⟩

/-- `CompleterStack::descend`, returning the new stack and the `bool` result.
The `[]` case is unreachable (the stack is never empty; `top()` would have
panicked) and is embedded as a no-op. -/
def CompleterStack.descend (s : CompleterStack) : CompleterStack × Bool :=
  match s.stack with
  | [] => (s, false)
  | top :: rest =>
    match top.selected_completion with
    | some scb =>
      match top.completer.descend scb with
      | some descended_completer =>
        let new_level := (CompleterView.new descended_completer).fetch_completions
        (⟨new_level :: top :: rest⟩, true)
      | none => (⟨top :: rest⟩, false)
    | none => (⟨top :: rest⟩, false)

/-- `CompleterStack::ascend`: with exactly one level, ask the completer for a
replacement (fetching its first batch) or leave the stack unchanged; with
more levels, `Vec::pop` the top (`pop` on an empty vector — unreachable — is
a no-op). -/
def CompleterStack.ascend (s : CompleterStack) : CompleterStack :=
  match s.stack with
  | [v] =>
    match v.completer.ascend with
    | some new_completer => ⟨[(CompleterView.new new_completer).fetch_completions]⟩
    | none => ⟨[v]⟩
  | [] => ⟨[]⟩
  | _top :: next :: rest => ⟨next :: rest⟩

/-- The hierarchical-navigation operations on one stack. -/
inductive StackOp where
  | descend
  | ascend

/-- Dispatch one `StackOp`. -/
def CompleterStack.applyOp (s : CompleterStack) : StackOp → CompleterStack
  | .descend => s.descend.1
  | .ascend => s.ascend

/-- A fresh stack after an arbitrary sequence of descends and ascends. -/
def CompleterStack.run (c : Completer) (ops : List StackOp) : CompleterStack :=
  ops.foldl CompleterStack.applyOp (CompleterStack.new c)

/-! ## `ui/model.rs`: `Model`

`Model`'s accessors index `stacks[self.selection]` and unwrap the stack top;
with an empty `stacks` vector these panic (and `next_tab` divides by zero).
The panics are embedded as `none`. -/

/-- `model::Model`.  The Rust field `stacks` ("the collection of tabs") is
named `tabs` here because `stacks` is a reserved token in this Lean
environment. -/
structure Model where
  tabs : List CompleterStack
  selection : Nat
  query : List Char

/-- `Model::new`. -/
def Model.new (completers : List Completer) : Model :=
  ⟨completers.map CompleterStack.new, 0, []⟩

/-- `Model::update_query`: propagate the session query to the active view;
`none` embeds the panics of `stacks[selection]` (empty tab vector) and
`last_mut().unwrap()` (empty stack, unreachable). -/
def Model.update_query (m : Model) : Option Model :=
  match m.tabs.get? m.selection with
  | none => none
  | some st =>
    match st.stack with
    | [] => none
    | top :: rest =>
      some { m with tabs := m.tabs.set m.selection ⟨top.update_query m.query :: rest⟩ }

/-- `Model::query_set`. -/
def Model.query_set (m : Model) (query : List Char) : Option Model :=
  Model.update_query { m with query := query }

/-- `Model::query_append`. -/
def Model.query_append (m : Model) (ch : Char) : Option Model :=
  Model.update_query { m with query := m.query ++ [ch] }

/-- `Model::fetch_completions` (one tick on the active view). -/
def Model.fetch_completions (m : Model) : Option Model :=
  match m.tabs.get? m.selection with
  | none => none
  | some st =>
    match st.stack with
    | [] => none
    | top :: rest =>
      some { m with tabs := m.tabs.set m.selection ⟨top.fetch_completions :: rest⟩ }

/-- `Model::next_tab`: `(selection + 1) % stacks.len()` (remainder by zero
panics on an empty tab vector), then `update_query`. -/
def Model.next_tab (m : Model) : Option Model :=
  if m.tabs.length = 0 then none
  else Model.update_query { m with selection := (m.selection + 1) % m.tabs.length }

/-- `Model::get_selected_result`: the outer `Option` embeds the accessor
panics, the inner one is the source's return value. -/
def Model.get_selected_result (m : Model) : Option (Option (List Char)) :=
  match m.tabs.get? m.selection with
  | none => none
  | some st =>
    match st.stack with
    | [] => none
    | top :: _ => some (top.selected_completion.map Completion.result_string)

/-- `Model::descend`: delegate to the active stack; on success, reset the
session query to the empty string (which re-filters the freshly pushed view). -/
def Model.descend (m : Model) : Option Model :=
  match m.tabs.get? m.selection with
  | none => none
  | some st =>
    let d := st.descend
    let m' := { m with tabs := m.tabs.set m.selection d.1 }
    if d.2 then m'.query_set [] else some m'

/-! ## Ranking invariants (for the claims about `scored_completions`) -/

/-- The ranking order of a `scored_completions` list: strictly larger score
first; on equal scores, the candidate appended earlier to `all_completions`
(the smaller index) first. -/
def rankR (a b : CompletionScore) : Prop :=
  b.score < a.score ∨ (a.score = b.score ∧ a.index < b.index)

/-- The ranked list is sorted for `rankR`, pairwise. -/
def ScoredInv (l : List CompletionScore) : Prop :=
  l.Pairwise rankR

/-- The inductive view invariant: the ranked list is `rankR`-sorted and
every stored index points inside `all_completions`. -/
def ViewInv (v : CompleterView) : Prop :=
  ScoredInv v.scored_completions ∧
  ∀ sc ∈ v.scored_completions, sc.index < v.all_completions.length

/-! ## Concrete values used by the bug-exhibiting theorems and witnesses -/

/-- A one-character completion. -/
def exCompletion : Completion := ⟨['a'], ['a']⟩

/-- A leaf completer: one pending batch, no descend, no ascend. -/
def exCompleter : Completer := .mk ['n','u','m'] [[exCompletion]] (fun _ => none) none

/-- A completer with one pending batch whose `descend` and `ascend` both
yield `exCompleter`. -/
def exCompleterD : Completer :=
  .mk ['f','s'] [[exCompletion]] (fun _ => some exCompleter) (some exCompleter)

/-- `exCompleterD`'s view after its first fetch: one candidate, ranked. -/
def exViewD : CompleterView := (CompleterView.new exCompleterD).fetch_completions

/-- `exCompleter`'s view after its first fetch: one candidate ranked, but
its completer can neither descend nor ascend. -/
def exViewLeaf : CompleterView := (CompleterView.new exCompleter).fetch_completions

/-! # Theorems -/

set_option maxRecDepth 2048

/-! ## Scoring: monotonicity in the weights -/

theorem wsb_mono (ws : List Nat) (j : Nat) {s1 s2 : ScoringSettings}
    (hw : s1.word_start_bonus ≤ s2.word_start_bonus) :
    word_start_bonus ws s1 j ≤ word_start_bonus ws s2 j := by
  unfold word_start_bonus
  split
  · exact hw
  · exact le_refl 0

theorem take_prev_mono {a b sb1 sb2 : Nat} (hab : a ≤ b) (hsb : sb1 ≤ sb2) :
    (if 0 < a then a + sb1 else 0) ≤ (if 0 < b then b + sb2 else 0) := by
  split <;> split <;> omega

theorem entryAt_mono (qs cs : List Char) (ws : List Nat) {s1 s2 : ScoringSettings}
    (hl : s1.letter_match ≤ s2.letter_match)
    (hs : s1.subsequent_bonus ≤ s2.subsequent_bonus)
    (hw : s1.word_start_bonus ≤ s2.word_start_bonus) :
    ∀ j i, (entryAt qs cs ws s1 i j).take ≤ (entryAt qs cs ws s2 i j).take ∧
           (entryAt qs cs ws s1 i j).leave ≤ (entryAt qs cs ws s2 i j).leave := by
  intro j
  induction j with
  | zero =>
    intro i
    simp only [entryAt]
    refine ⟨?_, le_refl 0⟩
    split
    · exact Nat.add_le_add hl (wsb_mono ws 0 hw)
    · exact le_refl 0
  | succ j ih =>
    intro i
    simp only [entryAt]
    constructor
    · split
      · refine Nat.add_le_add (Nat.add_le_add ?_ hl) (wsb_mono ws (j + 1) hw)
        cases i with
        | zero => exact le_refl 0
        | succ i' => exact max_le_max (take_prev_mono (ih i').1 hs) (ih i').2
      · exact le_refl 0
    · exact max_le_max (ih i).1 (ih i).2

theorem arrayScore_mono (qs cs : List Char) (ws : List Nat) {s1 s2 : ScoringSettings}
    (hl : s1.letter_match ≤ s2.letter_match)
    (hs : s1.subsequent_bonus ≤ s2.subsequent_bonus)
    (hw : s1.word_start_bonus ≤ s2.word_start_bonus) :
    arrayScore qs cs ws s1 ≤ arrayScore qs cs ws s2 := by
  unfold arrayScore
  split
  · exact max_le_max (entryAt_mono qs cs ws hl hs hw _ _).1 (entryAt_mono qs cs ws hl hs hw _ _).2
  · exact le_refl 0

theorem score_mono (c q : List Char) {s1 s2 : ScoringSettings}
    (hl : s1.letter_match ≤ s2.letter_match)
    (hs : s1.subsequent_bonus ≤ s2.subsequent_bonus)
    (hw : s1.word_start_bonus ≤ s2.word_start_bonus) :
    score c q s1 ≤ score c q s2 := by
  unfold score
  split
  · exact le_refl 0
  · exact arrayScore_mono _ _ _ hl hs hw

/-- C8: for every candidate `c` and query `q`, `score` is monotonically
non-decreasing in each of the three weights `letter_match`,
`subsequent_bonus` and `word_start_bonus` individually, holding the other
two fixed (the settings triple is written in the source's field order
`⟨letter_match, subsequent_bonus, word_start_bonus⟩`). -/
theorem score_monotone_in_each_weight (c q : List Char) (a a' b b' w w' : Score) :
    (a ≤ a' → score c q ⟨a, b, w⟩ ≤ score c q ⟨a', b, w⟩) ∧
    (b ≤ b' → score c q ⟨a, b, w⟩ ≤ score c q ⟨a, b', w⟩) ∧
    (w ≤ w' → score c q ⟨a, b, w⟩ ≤ score c q ⟨a, b, w'⟩) :=
  ⟨fun h => score_mono c q h (le_refl b) (le_refl w),
   fun h => score_mono c q (le_refl a) h (le_refl w),
   fun h => score_mono c q (le_refl a) (le_refl b) h⟩

/-- Witness for C8 at the candidate "foo" and query "fo", raising each
weight in turn. -/
theorem score_monotone_in_each_weight_witness :
    score ['f', 'o', 'o'] ['f', 'o'] ⟨1, 0, 0⟩ ≤ score ['f', 'o', 'o'] ['f', 'o'] ⟨2, 0, 0⟩ ∧
    score ['f', 'o', 'o'] ['f', 'o'] ⟨1, 0, 0⟩ ≤ score ['f', 'o', 'o'] ['f', 'o'] ⟨1, 3, 0⟩ ∧
    score ['f', 'o', 'o'] ['f', 'o'] ⟨1, 0, 0⟩ ≤ score ['f', 'o', 'o'] ['f', 'o'] ⟨1, 0, 2⟩ :=
  ⟨(score_monotone_in_each_weight ['f', 'o', 'o'] ['f', 'o'] 1 2 0 0 0 0).1 (by decide),
   (score_monotone_in_each_weight ['f', 'o', 'o'] ['f', 'o'] 1 1 0 3 0 0).2.1 (by decide),
   (score_monotone_in_each_weight ['f', 'o', 'o'] ['f', 'o'] 1 1 0 0 0 2).2.2 (by decide)⟩

/-! ## Scoring: C1 and C3 -/

/-- C1: the claim asserts `subsequence_match` is case-insensitive (so in
particular `subsequence_match(q, q)` is always true), as does the function's
own doc comment; but the source lowercases only the candidate, never the
query, so any query with an ASCII uppercase letter fails against itself:
`subsequence_match("A", "A")` is `false` while `subsequence_match("a", "a")`
is `true`. -/
theorem subsequence_match_uppercase_query_fails :
    subsequence_match ['A'] ['A'] = false ∧ subsequence_match ['a'] ['a'] = true := by
  decide

/-- C3 counterexample: with weights `letter_match = 1`,
`subsequent_bonus = 0`, `word_start_bonus = 0`, the candidate "foo" and the
query "ooo" satisfy `len(q) ≤ len(c)` and `subsequence_match(q, c) = false`,
yet `score(c, q) = 2` (the value scoring.rs's own `test_scoring_plain`
asserts), refuting `score(c, q) == 0` whenever `subsequence_match(q, c)` is
false. -/
theorem score_nonzero_with_failed_subsequence_match :
    subsequence_match ['o', 'o', 'o'] ['f', 'o', 'o'] = false ∧
    utf8Len ['o', 'o', 'o'] ≤ utf8Len ['f', 'o', 'o'] ∧
    score ['f', 'o', 'o'] ['o', 'o', 'o'] ⟨1, 0, 0⟩ = 2 := by
  decide

/-- C3 amended: for every candidate `c`, query `q` and settings,
`score(c, q, settings) == 0` whenever `len(q) > len(c)` (byte lengths); the
`subsequence_match` disjunct of the claim does not hold and is dropped. -/
theorem score_eq_zero_of_query_longer (c q : List Char) (s : ScoringSettings)
    (h : utf8Len c < utf8Len q) : score c q s = 0 := by
  unfold score
  simp [h]

/-- Witness for the amended C3: the query "fooo" is byte-longer than the
candidate "foo", and the score is 0. -/
theorem score_eq_zero_of_query_longer_witness :
    score ['f', 'o', 'o'] ['f', 'o', 'o', 'o'] ⟨1, 0, 0⟩ = 0 :=
  score_eq_zero_of_query_longer ['f', 'o', 'o'] ['f', 'o', 'o', 'o'] ⟨1, 0, 0⟩ (by decide)

/-! ## `CompleterView`: the empty-ranked-list paging bug (C2, C5) -/

/-- C2: the claim states that on an empty ranked list every selection
operation is a saturating/clamped no-op that does not panic.  The source
violates this in `next_page` and `select_last`, which compute the *plain*
`completions_count - 1` (unlike `select_next`'s `saturating_sub`): on an
empty list this underflows — a panic in debug builds, a wrap to `2^64 - 1`
in release builds.  Concretely (page height 10, release semantics): on a
fresh empty view `next_page` moves `selection` from 0 to 10 (min of
`0 + 10` and the wrapped `2^64 - 1`) and `select_last` moves it to
`2^64 - 1`, neither a no-op; `selected_completion` does return `none`. -/
theorem empty_list_paging_is_not_a_noop :
    ((CompleterView.new exCompleter).next_page 10).selection = 10 ∧
    ((CompleterView.new exCompleter).next_page 10).view_offset = 1 ∧
    ((CompleterView.new exCompleter).select_last 10).selection = 2 ^ 64 - 1 ∧
    (CompleterView.new exCompleter).selected_completion = none := by
  decide

/-- C5: the claim states every view operation preserves the invariant
`view_offset ≤ selection < view_offset + CHOOSER_HEIGHT` and
`selection ≤ len - 1` (when the ranked list is non-empty), with
`update_query` resetting both to 0.  The `next_page`/`select_last` underflow
(see C2) breaks preservation: from the fresh empty view (which satisfies the
invariant vacuously), `next_page` then one fetch tick delivering a single
candidate reaches a non-empty ranked list with `selection = 10 > 0 = len - 1`,
so `fetch_completions` does not preserve the invariant and the selection no
longer points inside the ranked list. -/
theorem view_invariant_not_preserved_after_empty_next_page :
    ((CompleterView.new exCompleter).next_page 10).scored_completions = [] ∧
    (((CompleterView.new exCompleter).next_page 10).fetch_completions).scored_completions.length = 1 ∧
    (((CompleterView.new exCompleter).next_page 10).fetch_completions).selection = 10 ∧
    ¬ (((CompleterView.new exCompleter).next_page 10).fetch_completions).selection ≤
        (((CompleterView.new exCompleter).next_page 10).fetch_completions).scored_completions.length - 1 := by
  decide

/-! ## `Model`: construction with no completers (C9) -/

/-- C9: a `Model` built from an empty completer list panics on every
operation that touches the active tab — `query_set`/`query_append` and
`fetch_completions` index `stacks[0]` out of bounds, `next_tab` takes `% 0`,
and `get_selected_result` indexes out of bounds (`none` embeds the panic). -/
theorem model_with_no_completers_panics :
    (Model.new []).query_set ['x'] = none ∧
    (Model.new []).query_append 'x' = none ∧
    (Model.new []).fetch_completions = none ∧
    (Model.new []).next_tab = none ∧
    (Model.new []).get_selected_result = none :=
  ⟨rfl, rfl, rfl, rfl, rfl⟩

/-! ## Ranked-list machinery: `merge_by`, `insertDesc`, `scoresFrom` -/

theorem merge_by_nil_right (f : CompletionScore → CompletionScore → Bool)
    (l : List CompletionScore) : merge_by f l [] = l := by
  induction l with
  | nil => rfl
  | cons x xs ih => simp [merge_by, ih]

theorem merge_by_cons_cons (f : CompletionScore → CompletionScore → Bool)
    (x y : CompletionScore) (xs ys : List CompletionScore) :
    merge_by f (x :: xs) (y :: ys) =
      if f x y then x :: merge_by f xs (y :: ys)
      else y :: merge_by f (x :: xs) ys := by
  by_cases h : f x y
  · simp [merge_by, List.takeWhile_cons, List.dropWhile_cons, h]
  · simp [merge_by, List.takeWhile_cons, List.dropWhile_cons, h]

theorem mem_merge_by (f : CompletionScore → CompletionScore → Bool)
    (l1 l2 : List CompletionScore) (z : CompletionScore) :
    z ∈ merge_by f l1 l2 ↔ z ∈ l1 ∨ z ∈ l2 := by
  induction l1 generalizing l2 with
  | nil => simp [merge_by]
  | cons x xs ih =>
    have hsplit : z ∈ l2 ↔
        z ∈ l2.takeWhile (fun y => !f x y) ∨ z ∈ l2.dropWhile (fun y => !f x y) := by
      rw [← List.mem_append, List.takeWhile_append_dropWhile]
    simp only [merge_by, List.mem_append, List.mem_cons, ih, hsplit]
    tauto

theorem rankR_of_le_scores {x z : CompletionScore} (hs : z.score ≤ x.score)
    (hidx : z.score = x.score → x.index < z.index) : rankR x z := by
  rcases Nat.lt_or_ge z.score x.score with h | h
  · exact Or.inl h
  · have heq : z.score = x.score := Nat.le_antisymm hs h
    exact Or.inr ⟨heq.symm, hidx heq⟩

theorem rankR_score_le {a b : CompletionScore} (h : rankR a b) : b.score ≤ a.score := by
  rcases h with h | ⟨h, _⟩
  · exact Nat.le_of_lt h
  · exact Nat.le_of_eq h.symm

theorem merge_scoredInv :
    ∀ (l1 : List CompletionScore), ScoredInv l1 →
    ∀ (l2 : List CompletionScore), ScoredInv l2 →
      (∀ a ∈ l1, ∀ b ∈ l2, a.index < b.index) →
      ScoredInv (merge_by score_ge l1 l2) := by
  intro l1
  induction l1 with
  | nil =>
    intro _ l2 h2 _
    simpa [merge_by] using h2
  | cons x xs ih =>
    intro h1 l2
    induction l2 with
    | nil =>
      intro _ _
      rw [merge_by_nil_right]
      exact h1
    | cons y ys ih2 =>
      intro h2 hidx
      rcases List.pairwise_cons.mp h1 with ⟨hx, hxs⟩
      rcases List.pairwise_cons.mp h2 with ⟨hy, hys⟩
      rw [merge_by_cons_cons]
      by_cases hyx : y.score ≤ x.score
      · rw [if_pos (by simpa [score_ge] using hyx)]
        refine List.pairwise_cons.mpr ⟨?_, ?_⟩
        · intro z hz
          rcases (mem_merge_by _ _ _ z).mp hz with hzxs | hzl2
          · exact hx z hzxs
          · have hzy : z.score ≤ y.score := by
              rcases List.mem_cons.mp hzl2 with rfl | hzys
              · exact Nat.le_refl _
              · exact rankR_score_le (hy z hzys)
            exact rankR_of_le_scores (Nat.le_trans hzy hyx)
              (fun _ => hidx x (List.mem_cons_self x xs) z hzl2)
        · exact ih hxs (y :: ys) h2
            (fun a ha b hb => hidx a (List.mem_cons_of_mem x ha) b hb)
      · rw [if_neg (by simpa [score_ge] using hyx)]
        have hxy : x.score < y.score := Nat.lt_of_not_le hyx
        refine List.pairwise_cons.mpr ⟨?_, ?_⟩
        · intro z hz
          rcases (mem_merge_by _ _ _ z).mp hz with hzl1 | hzys
          · have hzx : z.score ≤ x.score := by
              rcases List.mem_cons.mp hzl1 with rfl | hzxs
              · exact Nat.le_refl _
              · exact rankR_score_le (hx z hzxs)
            exact Or.inl (Nat.lt_of_le_of_lt hzx hxy)
          · exact hy z hzys
        · exact ih2 hys
            (fun a ha b hb => hidx a ha b (List.mem_cons_of_mem y hb))

theorem mem_insertDesc (x z : CompletionScore) (l : List CompletionScore) :
    z ∈ insertDesc x l ↔ z = x ∨ z ∈ l := by
  induction l with
  | nil => simp [insertDesc]
  | cons y ys ih =>
    by_cases h : x.score < y.score
    · simp only [insertDesc, if_pos h, List.mem_cons, ih]
      tauto
    · simp only [insertDesc, if_neg h, List.mem_cons]

theorem pairwise_insertDesc (x : CompletionScore) (l : List CompletionScore)
    (hl : ScoredInv l) (hidx : ∀ y ∈ l, x.index < y.index) :
    ScoredInv (insertDesc x l) := by
  induction l with
  | nil =>
    simp [insertDesc, ScoredInv]
  | cons y ys ih =>
    rcases List.pairwise_cons.mp hl with ⟨hy, hys⟩
    by_cases h : x.score < y.score
    · rw [insertDesc, if_pos h]
      refine List.pairwise_cons.mpr ⟨?_, ih hys (fun z hz => hidx z (List.mem_cons_of_mem y hz))⟩
      intro z hz
      rcases (mem_insertDesc x z ys).mp hz with rfl | hzys
      · exact Or.inl h
      · exact hy z hzys
    · rw [insertDesc, if_neg h]
      refine List.pairwise_cons.mpr ⟨?_, hl⟩
      intro z hz
      have hzx : z.score ≤ x.score := by
        rcases List.mem_cons.mp hz with rfl | hzys
        · exact Nat.le_of_not_lt h
        · exact Nat.le_trans (rankR_score_le (hy z hzys)) (Nat.le_of_not_lt h)
      exact rankR_of_le_scores hzx (fun _ => hidx z hz)

theorem mem_sortScores (z : CompletionScore) (l : List CompletionScore) :
    z ∈ sortScores l ↔ z ∈ l := by
  induction l with
  | nil => simp [sortScores]
  | cons x xs ih =>
    show z ∈ insertDesc x (sortScores xs) ↔ _
    rw [mem_insertDesc, ih, List.mem_cons]

theorem pairwise_sortScores (l : List CompletionScore)
    (h : l.Pairwise (fun a b => a.index < b.index)) : ScoredInv (sortScores l) := by
  induction l with
  | nil => simp [sortScores, ScoredInv]
  | cons x xs ih =>
    rcases List.pairwise_cons.mp h with ⟨hx, hxs⟩
    show ScoredInv (insertDesc x (sortScores xs))
    exact pairwise_insertDesc x _ (ih hxs) (fun y hy => hx y ((mem_sortScores y xs).mp hy))

theorem mem_scoresFrom (q : List Char) (l : List Completion) :
    ∀ i, ∀ sc ∈ scoresFrom q i l, i ≤ sc.index ∧ sc.index < i + l.length := by
  induction l with
  | nil => intro i sc hsc; simp [scoresFrom] at hsc
  | cons c cs ih =>
    intro i sc hsc
    by_cases h : subsequence_match q c.search_string
    · rw [scoresFrom, if_pos h] at hsc
      rcases List.mem_cons.mp hsc with rfl | hrest
      · simp
      · have := ih (i + 1) sc hrest
        constructor <;> [omega; (simp only [List.length_cons]; omega)]
    · rw [scoresFrom, if_neg h] at hsc
      have := ih (i + 1) sc hsc
      constructor <;> [omega; (simp only [List.length_cons]; omega)]

theorem pairwise_scoresFrom (q : List Char) (l : List Completion) :
    ∀ i, (scoresFrom q i l).Pairwise (fun a b => a.index < b.index) := by
  induction l with
  | nil => intro i; simp [scoresFrom]
  | cons c cs ih =>
    intro i
    by_cases h : subsequence_match q c.search_string
    · rw [scoresFrom, if_pos h]
      refine List.pairwise_cons.mpr ⟨?_, ih (i + 1)⟩
      intro b hb
      have := mem_scoresFrom q cs (i + 1) b hb
      simp only
      omega
    · rw [scoresFrom, if_neg h]
      exact ih (i + 1)

theorem scores_sorted_and_bounded (v : CompleterView) (start : Nat) :
    ScoredInv (v.scores start) ∧
    ∀ sc ∈ v.scores start, start ≤ sc.index ∧ sc.index < v.all_completions.length := by
  unfold CompleterView.scores
  refine ⟨pairwise_sortScores _ (pairwise_scoresFrom _ _ _), ?_⟩
  intro sc hsc
  have h := mem_scoresFrom v.query (v.all_completions.drop start) start sc
    ((mem_sortScores sc _).mp hsc)
  have hlen : (v.all_completions.drop start).length = v.all_completions.length - start :=
    List.length_drop start v.all_completions
  omega

/-! ## The view invariant and C4 / C10 -/

theorem viewInv_new (c : Completer) : ViewInv (CompleterView.new c) := by
  constructor
  · exact List.Pairwise.nil
  · intro sc hsc
    simp [CompleterView.new] at hsc

theorem viewInv_update_query (v : CompleterView) (q : List Char) :
    ViewInv (v.update_query q) := by
  have h := scores_sorted_and_bounded { v with selection := 0, view_offset := 0, query := q } 0
  exact ⟨h.1, fun sc hsc => (h.2 sc hsc).2⟩

theorem viewInv_fetch (v : CompleterView) (h : ViewInv v) : ViewInv v.fetch_completions := by
  obtain ⟨hsort, hmem⟩ := h
  have hs := scores_sorted_and_bounded
    { v with completer := v.completer.fetch.2,
             all_completions := v.all_completions ++ v.completer.fetch.1 }
    v.all_completions.length
  constructor
  · show ScoredInv (merge_by score_ge v.scored_completions _)
    refine merge_scoredInv _ hsort _ hs.1 ?_
    intro a ha b hb
    have h1 := hmem a ha
    have h2 := (hs.2 b hb).1
    omega
  · intro sc hsc
    show sc.index < (v.all_completions ++ v.completer.fetch.1).length
    rcases (mem_merge_by _ _ _ sc).mp hsc with h1 | h2
    · have := hmem sc h1
      simp only [List.length_append]
      omega
    · exact (hs.2 sc h2).2

theorem viewInv_of_fields {v v' : CompleterView}
    (h1 : v'.scored_completions = v.scored_completions)
    (h2 : v'.all_completions = v.all_completions)
    (h : ViewInv v) : ViewInv v' := by
  unfold ViewInv ScoredInv at h ⊢
  rw [h1, h2]
  exact h

theorem viewInv_applyOp (H : Nat) (v : CompleterView) (op : ViewOp) (h : ViewInv v) :
    ViewInv (v.applyOp H op) := by
  cases op with
  | update_query q => exact viewInv_update_query v q
  | fetch_completions => exact viewInv_fetch v h
  | select_previous =>
    exact viewInv_of_fields (by simp [CompleterView.applyOp, CompleterView.select_previous])
      (by simp [CompleterView.applyOp, CompleterView.select_previous]) h
  | select_next =>
    exact viewInv_of_fields (by simp [CompleterView.applyOp, CompleterView.select_next])
      (by simp [CompleterView.applyOp, CompleterView.select_next]) h
  | previous_page =>
    exact viewInv_of_fields (by simp [CompleterView.applyOp, CompleterView.previous_page])
      (by simp [CompleterView.applyOp, CompleterView.previous_page]) h
  | next_page =>
    exact viewInv_of_fields (by simp [CompleterView.applyOp, CompleterView.next_page])
      (by simp [CompleterView.applyOp, CompleterView.next_page]) h
  | select_first =>
    exact viewInv_of_fields (by simp [CompleterView.applyOp, CompleterView.select_first])
      (by simp [CompleterView.applyOp, CompleterView.select_first]) h
  | select_last =>
    exact viewInv_of_fields (by simp [CompleterView.applyOp, CompleterView.select_last])
      (by simp [CompleterView.applyOp, CompleterView.select_last]) h

theorem viewInv_foldl (H : Nat) (ops : List ViewOp) :
    ∀ v, ViewInv v → ViewInv (ops.foldl (CompleterView.applyOp H) v) := by
  induction ops with
  | nil => intro v h; exact h
  | cons op rest ih => intro v h; exact ih _ (viewInv_applyOp H v op h)

theorem viewInv_run (H : Nat) (c : Completer) (ops : List ViewOp) :
    ViewInv (CompleterView.run H c ops) :=
  viewInv_foldl H ops _ (viewInv_new c)

/-- C4: after any sequence of view operations starting from a fresh view (in
particular any sequence of `update_query` and `fetch_completions`/absorb
calls, for any page height), the ranked list `scored_completions` is sorted
in non-increasing score order, and whenever two entries have equal score the
one whose candidate was appended earlier to `all_completions` (the smaller
stored index — pre-existing entries have smaller indices than any later
batch) precedes the other. -/
theorem scored_completions_sorted_and_first_arrival (H : Nat) (c : Completer) (ops : List ViewOp) :
    ((CompleterView.run H c ops).scored_completions.Pairwise fun a b => b.score ≤ a.score) ∧
    ((CompleterView.run H c ops).scored_completions.Pairwise fun a b =>
        a.score = b.score → a.index < b.index) := by
  have h := (viewInv_run H c ops).1
  constructor
  · exact h.imp rankR_score_le
  · refine h.imp ?_
    intro a b hab heq
    rcases hab with h1 | ⟨_, h2⟩
    · exact absurd heq (Nat.ne_of_gt h1)
    · exact h2

/-- C10: after any sequence of view operations, every `CompletionScore.index`
stored in `scored_completions` is a valid index into `all_completions`;
hence `completion_at` succeeds at every position of the ranked list (and
`selected_completion` never indexes out of bounds); and `all_completions` is
append-only (each operation extends it, so stored indices never go stale). -/
theorem stored_indices_always_valid (H : Nat) (c : Completer) (ops : List ViewOp) :
    (∀ sc ∈ (CompleterView.run H c ops).scored_completions,
        sc.index < (CompleterView.run H c ops).all_completions.length) ∧
    (∀ i, i < (CompleterView.run H c ops).scored_completions.length →
        ((CompleterView.run H c ops).completion_at i).isSome = true) ∧
    (∀ op, List.IsPrefix (CompleterView.run H c ops).all_completions
        ((CompleterView.applyOp H (CompleterView.run H c ops) op).all_completions)) := by
  have h := (viewInv_run H c ops).2
  refine ⟨h, ?_, ?_⟩
  · intro i hi
    have hmem : (CompleterView.run H c ops).scored_completions[i] ∈
        (CompleterView.run H c ops).scored_completions := List.getElem_mem hi
    simp [CompleterView.completion_at, List.getElem?_eq_getElem hi,
      List.getElem?_eq_getElem (h _ hmem)]
  · intro op
    cases op with
    | update_query q =>
      have he : ((CompleterView.run H c ops).applyOp H (ViewOp.update_query q)).all_completions =
          (CompleterView.run H c ops).all_completions := by
        simp [CompleterView.applyOp, CompleterView.update_query]
      rw [he]
    | fetch_completions => exact List.prefix_append _ _
    | select_previous =>
      have he : ((CompleterView.run H c ops).applyOp H ViewOp.select_previous).all_completions =
          (CompleterView.run H c ops).all_completions := by
        simp [CompleterView.applyOp, CompleterView.select_previous]
      rw [he]
    | select_next =>
      have he : ((CompleterView.run H c ops).applyOp H ViewOp.select_next).all_completions =
          (CompleterView.run H c ops).all_completions := by
        simp [CompleterView.applyOp, CompleterView.select_next]
      rw [he]
    | previous_page =>
      have he : ((CompleterView.run H c ops).applyOp H ViewOp.previous_page).all_completions =
          (CompleterView.run H c ops).all_completions := by
        simp [CompleterView.applyOp, CompleterView.previous_page]
      rw [he]
    | next_page =>
      have he : ((CompleterView.run H c ops).applyOp H ViewOp.next_page).all_completions =
          (CompleterView.run H c ops).all_completions := by
        simp [CompleterView.applyOp, CompleterView.next_page]
      rw [he]
    | select_first =>
      have he : ((CompleterView.run H c ops).applyOp H ViewOp.select_first).all_completions =
          (CompleterView.run H c ops).all_completions := by
        simp [CompleterView.applyOp, CompleterView.select_first]
      rw [he]
    | select_last =>
      have he : ((CompleterView.run H c ops).applyOp H ViewOp.select_last).all_completions =
          (CompleterView.run H c ops).all_completions := by
        simp [CompleterView.applyOp, CompleterView.select_last]
      rw [he]

/-- Witness for C10: one fetch tick on the example completer yields the
ranked entry `⟨0, 0⟩` over one accumulated candidate; `completion_at 0`
succeeds, and a further `select_next` keeps the accumulated list a prefix. -/
theorem stored_indices_always_valid_witness :
    (⟨0, 0⟩ : CompletionScore).index <
      (CompleterView.run 10 exCompleter [ViewOp.fetch_completions]).all_completions.length ∧
    ((CompleterView.run 10 exCompleter [ViewOp.fetch_completions]).completion_at 0).isSome = true ∧
    List.IsPrefix (CompleterView.run 10 exCompleter [ViewOp.fetch_completions]).all_completions
      ((CompleterView.applyOp 10 (CompleterView.run 10 exCompleter [ViewOp.fetch_completions])
          ViewOp.select_next).all_completions) :=
  ⟨(stored_indices_always_valid 10 exCompleter [ViewOp.fetch_completions]).1 ⟨0, 0⟩ (by decide),
   (stored_indices_always_valid 10 exCompleter [ViewOp.fetch_completions]).2.1 0 (by decide),
   (stored_indices_always_valid 10 exCompleter [ViewOp.fetch_completions]).2.2 ViewOp.select_next⟩

/-! ## `CompleterStack` navigation: C6 and C7 -/

theorem stack_applyOp_nonempty (s : CompleterStack) (op : StackOp)
    (h : 0 < s.stack.length) : 0 < (s.applyOp op).stack.length := by
  obtain ⟨l⟩ := s
  cases op with
  | descend =>
    show 0 < (CompleterStack.descend ⟨l⟩).1.stack.length
    cases l with
    | nil => simp at h
    | cons top rest =>
      cases hsel : top.selected_completion with
      | none => simp [CompleterStack.descend, hsel]
      | some scb =>
        cases hdes : top.completer.descend scb with
        | none => simp [CompleterStack.descend, hsel, hdes]
        | some dc => simp [CompleterStack.descend, hsel, hdes]
  | ascend =>
    show 0 < (CompleterStack.ascend ⟨l⟩).stack.length
    cases l with
    | nil => simp at h
    | cons a rest =>
      cases rest with
      | nil =>
        cases hasc : a.completer.ascend with
        | none => simp [CompleterStack.ascend, hasc]
        | some nc => simp [CompleterStack.ascend, hasc]
      | cons b rest2 => simp [CompleterStack.ascend]

theorem stack_descend_yields_nonempty (s : CompleterStack) (h : s.descend.2 = true) :
    ∃ a b t, s.descend.1.stack = a :: b :: t := by
  obtain ⟨l⟩ := s
  cases l with
  | nil => simp [CompleterStack.descend] at h
  | cons top rest =>
    cases hsel : top.selected_completion with
    | none => simp [CompleterStack.descend, hsel] at h
    | some scb =>
      cases hdes : top.completer.descend scb with
      | none => simp [CompleterStack.descend, hsel, hdes] at h
      | some dc =>
        exact ⟨(CompleterView.new dc).fetch_completions, top, rest,
          by simp [CompleterStack.descend, hsel, hdes]⟩

/-- C6: a stack holds at least one view after any sequence of descends and
ascends; `ascend` pops the top exactly when more than one level is open,
and on a one-level stack it replaces the single view with a freshly built,
first-fetched view when the completer's `ascend` yields a new completer,
leaving the stack unchanged when it yields `None`. -/
theorem completer_stack_ascend_spec :
    (∀ (c : Completer) (ops : List StackOp), 1 ≤ (CompleterStack.run c ops).stack.length) ∧
    (∀ s : CompleterStack, 1 < s.stack.length → s.ascend.stack = s.stack.tail) ∧
    (∀ (v : CompleterView) (nc : Completer), v.completer.ascend = some nc →
        (CompleterStack.ascend ⟨[v]⟩).stack = [(CompleterView.new nc).fetch_completions]) ∧
    (∀ v : CompleterView, v.completer.ascend = none →
        CompleterStack.ascend ⟨[v]⟩ = ⟨[v]⟩) := by
  refine ⟨?_, ?_, ?_, ?_⟩
  · intro c ops
    have haux : ∀ (l : List StackOp) (s : CompleterStack), 0 < s.stack.length →
        0 < (l.foldl CompleterStack.applyOp s).stack.length := by
      intro l
      induction l with
      | nil => intro s h; exact h
      | cons op rest ih => intro s h; exact ih _ (stack_applyOp_nonempty s op h)
    exact haux ops (CompleterStack.new c) (by simp [CompleterStack.new])
  · intro s h
    obtain ⟨l⟩ := s
    cases l with
    | nil => simp at h
    | cons a rest =>
      cases rest with
      | nil => simp at h
      | cons b rest2 => simp [CompleterStack.ascend]
  · intro v nc h
    simp [CompleterStack.ascend, h]
  · intro v h
    simp [CompleterStack.ascend, h]

/-- Witness for C6: a descend+ascend run keeps the stack non-empty; popping
a two-level stack keeps the lower level; ascending the one-level stack whose
completer can ascend replaces its view with a freshly fetched one; ascending
the one-level stack whose completer cannot leaves it unchanged. -/
theorem completer_stack_ascend_spec_witness :
    1 ≤ (CompleterStack.run exCompleterD [StackOp.descend, StackOp.ascend]).stack.length ∧
    (CompleterStack.ascend ⟨[exViewD, exViewLeaf]⟩).stack =
      (⟨[exViewD, exViewLeaf]⟩ : CompleterStack).stack.tail ∧
    (CompleterStack.ascend ⟨[exViewD]⟩).stack = [(CompleterView.new exCompleter).fetch_completions] ∧
    CompleterStack.ascend ⟨[exViewLeaf]⟩ = ⟨[exViewLeaf]⟩ :=
  ⟨completer_stack_ascend_spec.1 exCompleterD [StackOp.descend, StackOp.ascend],
   completer_stack_ascend_spec.2.1 ⟨[exViewD, exViewLeaf]⟩ (by decide),
   completer_stack_ascend_spec.2.2.1 exViewD exCompleter rfl,
   completer_stack_ascend_spec.2.2.2 exViewLeaf rfl⟩

/-- C7: `CompleterStack::descend` pushes exactly one freshly built,
first-fetched view and returns `true` precisely when the active view has a
selected completion on which the completer's `descend` yields a new
completer; in the remaining cases it returns `false` and leaves the stack
unchanged; and when the active stack's descend succeeds, `Model::descend`
produces a model whose session query has been reset to the empty string. -/
theorem completer_stack_descend_spec :
    (∀ (v : CompleterView) (rest : List CompleterView) (scb : Completion) (dc : Completer),
        v.selected_completion = some scb → v.completer.descend scb = some dc →
        CompleterStack.descend ⟨v :: rest⟩ =
          (⟨(CompleterView.new dc).fetch_completions :: v :: rest⟩, true)) ∧
    (∀ (v : CompleterView) (rest : List CompleterView),
        v.selected_completion = none →
        CompleterStack.descend ⟨v :: rest⟩ = (⟨v :: rest⟩, false)) ∧
    (∀ (v : CompleterView) (rest : List CompleterView) (scb : Completion),
        v.selected_completion = some scb → v.completer.descend scb = none →
        CompleterStack.descend ⟨v :: rest⟩ = (⟨v :: rest⟩, false)) ∧
    (∀ (m : Model) (st : CompleterStack),
        m.tabs.get? m.selection = some st → st.descend.2 = true →
        ∃ m', Model.descend m = some m' ∧ m'.query = []) := by
  refine ⟨?_, ?_, ?_, ?_⟩
  · intro v rest scb dc h1 h2
    simp [CompleterStack.descend, h1, h2]
  · intro v rest h1
    simp [CompleterStack.descend, h1]
  · intro v rest scb h1 h2
    simp [CompleterStack.descend, h1, h2]
  · intro m st hget hdes
    obtain ⟨a, b, t, hstack⟩ := stack_descend_yields_nonempty st hdes
    have hget2 : (m.tabs.set m.selection st.descend.1).get? m.selection =
        some st.descend.1 := by
      rw [List.get?_set_eq, hget]
      rfl
    refine ⟨{ m with
        tabs := (m.tabs.set m.selection st.descend.1).set m.selection
          ⟨(a.update_query []) :: b :: t⟩,
        query := [] }, ?_, rfl⟩
    simp only [Model.descend, hget, hdes, if_true]
    simp only [Model.query_set, Model.update_query, hget2, hstack]

/-- Witness for C7: descending the fetched example view (whose completer can
descend) pushes exactly the freshly fetched view and reports `true`; an
unfetched view (no selection) and a fetched leaf view (descend returns
`None`) leave the stack unchanged with `false`; and a one-tab model whose
stack can descend yields a model with an empty session query. -/
theorem completer_stack_descend_spec_witness :
    CompleterStack.descend ⟨[exViewD]⟩ =
      (⟨[(CompleterView.new exCompleter).fetch_completions, exViewD]⟩, true) ∧
    CompleterStack.descend ⟨[CompleterView.new exCompleter]⟩ =
      (⟨[CompleterView.new exCompleter]⟩, false) ∧
    CompleterStack.descend ⟨[exViewLeaf]⟩ = (⟨[exViewLeaf]⟩, false) ∧
    ∃ m', Model.descend ⟨[⟨[exViewD]⟩], 0, ['q']⟩ = some m' ∧ m'.query = [] :=
  ⟨completer_stack_descend_spec.1 exViewD [] exCompletion exCompleter rfl rfl,
   completer_stack_descend_spec.2.1 (CompleterView.new exCompleter) [] rfl,
   completer_stack_descend_spec.2.2.1 exViewLeaf [] exCompletion rfl rfl,
   completer_stack_descend_spec.2.2.2 ⟨[⟨[exViewD]⟩], 0, ['q']⟩ ⟨[exViewD]⟩ rfl (by decide)⟩
